import Mathlib

/-!
Verification of the dynamic-binary-translation VM (`vt-vm-dynamic`).

The development shallowly embeds the Rust sources:

* `src/cpu.rs`      — `Cpu`, `OpCode`, `TryFrom<u8> for OpCode`
* `src/memory.rs`   — `Memory` (64 KiB byte array), `read`, `write`, `write_chunk`
* `src/program.rs`  — `Program`
* `src/lib.rs`      — `EmulationEngine::{load_program, interpret, main_loop}`
* `src/translation.rs` — the LLVM IR emitted by
  `TranslatorEngine::compile_dynamic_basic_block` for each opcode

Machine-integer conventions: `i32` values are `Int`s normalised with
`wrap32` (two's-complement wraparound, the release-mode Rust semantics and
the deterministic wraparound reading of LLVM `nsw`/`nuw` arithmetic);
`usize` values are `Nat`s reduced modulo `2 ^ 64` where the source
arithmetic can wrap.  Fallible operations (array-index panics, `expect`
panics, decode failures) are modelled with `Option`/error results.
-/

namespace VtVm

/-- `2 ^ 32`, the modulus of 32-bit machine arithmetic. -/
def UINT32_BOUND : Nat := 4294967296

/-- `2 ^ 64`, the modulus of 64-bit (`usize`) machine arithmetic. -/
def UINT64_BOUND : Nat := 18446744073709551616

/-- Normalise an integer to the `i32` range `[-2^31, 2^31)` by
two's-complement wraparound.  This is the value semantics of Rust's
release-mode `i32` `+=`/`-=` and of LLVM `add`/`sub` on `i32` (reading
the `nsw` flags of `translation.rs` as deterministic wraparound). -/
def wrap32 (x : Int) : Int := (x + 2147483648) % 4294967296 - 2147483648

/-- `MEMORY_SIZE` from `src/memory.rs`: 64 KiB. -/
def MEMORY_SIZE : Nat := 1024 * 64

/-- The six opcodes of `src/cpu.rs` (`enum OpCode`). -/
inductive OpCode : Type where
  | HALT
  | CLRA
  | INC3A
  | DECA
  | SETL
  | BACK7
deriving DecidableEq

/-- The discriminant values fixed by `#[repr(u8)]` in `src/cpu.rs`. -/
def OpCode.toByte : OpCode → Nat
  | .HALT => 0
  | .CLRA => 1
  | .INC3A => 2
  | .DECA => 3
  | .SETL => 4
  | .BACK7 => 5

/-- `impl TryFrom<u8> for OpCode` from `src/cpu.rs`: bytes 0..5 decode to
the six opcodes, anything else is a decode error (`Err(())`, here `none`). -/
def OpCode.tryFrom : Nat → Option OpCode
  | 0 => some .HALT
  | 1 => some .CLRA
  | 2 => some .INC3A
  | 3 => some .DECA
  | 4 => some .SETL
  | 5 => some .BACK7
  | _ => none

/-- The CPU state of `src/cpu.rs`.  `acc`/`lc` are `i32` (kept as `Int`,
wrapped by the operations), `pc` is `usize` (kept as `Nat`, reduced mod
`2 ^ 64` by the operations), `halt` is `bool`. -/
structure Cpu where
  acc : Int
  lc : Int
  pc : Nat
  halt : Bool
deriving DecidableEq

/-- Whether an opcode terminates a dynamic basic block (the `break` arms
of the interpreter loop in `src/lib.rs`). -/
def OpCode.isTerminal : OpCode → Bool
  | .HALT => true
  | .BACK7 => true
  | _ => false

/-- The per-opcode state update applied by the interpreter loop of
`EmulationEngine::interpret` (`src/lib.rs`, the six `match` arms).
`acc`/`lc` arithmetic wraps at 32 bits, `pc` arithmetic is `usize`
arithmetic mod `2 ^ 64`; `BACK7` decrements `lc` and then tests the
decremented value. -/
def OpCode.step : OpCode → Cpu → Cpu
  | .HALT, c => { c with halt := true, pc := (c.pc + 1) % UINT64_BOUND }
  | .CLRA, c => { c with acc := 0, pc := (c.pc + 1) % UINT64_BOUND }
  | .INC3A, c => { c with acc := wrap32 (c.acc + 3), pc := (c.pc + 1) % UINT64_BOUND }
  | .DECA, c => { c with acc := wrap32 (c.acc - 1), pc := (c.pc + 1) % UINT64_BOUND }
  | .SETL, c => { c with lc := c.acc, pc := (c.pc + 1) % UINT64_BOUND }
  | .BACK7, c =>
      let lc2 := wrap32 (c.lc - 1)
      if 0 < lc2 then
        { c with lc := lc2, pc := (c.pc + (UINT64_BOUND - 6)) % UINT64_BOUND }
      else
        { c with lc := lc2, pc := (c.pc + 1) % UINT64_BOUND }

/-- The 64 KiB byte memory of `src/memory.rs`.  The backing array
`data: [u8; MEMORY_SIZE]` is modelled as a function from addresses to
byte values; only indices `< MEMORY_SIZE` are ever meaningful. -/
structure Memory where
  data : Nat → Nat

/-- `Memory::read` (`self.data[address]`): in-bounds reads return the
byte, out-of-bounds reads panic (modelled as `none`). -/
def Memory.read (m : Memory) (address : Nat) : Option Nat :=
  if address < MEMORY_SIZE then some (m.data address) else none

/-- `Memory::write` (`self.data[address] = value`), for in-bounds
addresses. -/
def Memory.write (m : Memory) (address value : Nat) : Memory :=
  { data := fun i => if i = address then value else m.data i }

/-- `Memory::write_chunk`: rejects chunks larger than `MEMORY_SIZE`
without touching memory, otherwise copies the chunk to offset 0 (the
`for (index, data) in chunk.iter().enumerate()` loop) and leaves every
later byte unchanged.  The `Option String` component is the `Result`
(`some` = `Err`). -/
def Memory.write_chunk (m : Memory) (chunk : List Nat) : Memory × Option String :=
  if chunk.length > MEMORY_SIZE then
    (m, some "Chunk size is larger than maximum memory (65536 bytes)")
  else
    ({ data := fun i => if i < chunk.length then chunk.getD i 0 else m.data i }, none)

/-- `Program` from `src/program.rs`: a byte image plus two initial `i32`
register values. -/
structure Program where
  data : List Nat
  initial_acc : Int
  initial_lc : Int

/-- The mutable state of `EmulationEngine` (`src/lib.rs`): one CPU and
one memory. -/
structure EngineSt where
  cpu : Cpu
  mem : Memory

/-- `EmulationEngine::load_program`: set `acc`/`lc` from the program and
copy the image into memory with `write_chunk`; the `.expect` on a
too-large image is a panic (`none`).  `pc` and `halt` are not assigned. -/
def load_program (e : EngineSt) (p : Program) : Option EngineSt :=
  let cpu' := { e.cpu with acc := p.initial_acc, lc := p.initial_lc }
  match Memory.write_chunk e.mem p.data with
  | (m', none) => some { cpu := cpu', mem := m' }
  | (_, some _) => none

/-- `EmulationEngine::interpret` (`src/lib.rs`): starting at the current
`pc`, decode a byte, record the opcode, apply its `step`, and loop until
a terminal opcode (`HALT`/`BACK7`) breaks.  Returns the updated engine
state together with the executed dynamic basic block.  `none` models the
two panics: an out-of-bounds `memory.read` and the `expect` on an
unknown opcode. -/
def interpret (e : EngineSt) : Option (EngineSt × List OpCode) :=
  match hb : e.mem.read e.cpu.pc with
  | none => none
  | some b =>
    match OpCode.tryFrom b with
    | none => none
    | some op =>
      if hterm : op.isTerminal then
        some ({ e with cpu := op.step e.cpu }, [op])
      else
        match interpret { e with cpu := op.step e.cpu } with
        | some (e2, l) => some (e2, op :: l)
        | none => none
termination_by MEMORY_SIZE - e.cpu.pc
decreasing_by
  have hpc : e.cpu.pc < MEMORY_SIZE := by
    by_contra hge
    simp [Memory.read, hge] at hb
  have hstep : (OpCode.step op e.cpu).pc = (e.cpu.pc + 1) % UINT64_BOUND := by
    cases op <;> simp_all [OpCode.isTerminal, OpCode.step]
  have hsmall : (e.cpu.pc + 1) % UINT64_BOUND = e.cpu.pc + 1 := by
    apply Nat.mod_eq_of_lt
    have : MEMORY_SIZE < UINT64_BOUND := by decide
    omega
  simp only [hstep, hsmall]
  omega

/-- The opcode trace of the dynamic basic block starting at address
`pc`: the same decode-until-terminator loop as `interpret`, but without
the register state (which the trace does not depend on).  This is the
opcode sequence a cache entry for `pc` stores. -/
def decodeDBB (m : Memory) (pc : Nat) : Option (List OpCode) :=
  match hb : m.read pc with
  | none => none
  | some b =>
    match OpCode.tryFrom b with
    | none => none
    | some op =>
      if op.isTerminal then
        some [op]
      else
        match decodeDBB m ((pc + 1) % UINT64_BOUND) with
        | some l => some (op :: l)
        | none => none
termination_by MEMORY_SIZE - pc
decreasing_by
  have hpc : pc < MEMORY_SIZE := by
    by_contra hge
    simp [Memory.read, hge] at hb
  have hsmall : (pc + 1) % UINT64_BOUND = pc + 1 := by
    apply Nat.mod_eq_of_lt
    have : MEMORY_SIZE < UINT64_BOUND := by decide
    omega
  simp only [hsmall]
  omega

/-- Interpreting the opcodes of a block once on a CPU state: the fold of
the interpreter's per-opcode table semantics (`OpCode.step`).  This is
the reference semantics a compiled block is measured against. -/
def interpretBlock (dbb : List OpCode) (c : Cpu) : Cpu :=
  dbb.foldl (fun c op => op.step c) c

/-- Overwrite the low 32 bits of a 64-bit `pc` value with `v` (mod
`2 ^ 32`).  This is the effect of the emitted code's `i32` store through
`pc_ptr`, which `setup_prologue` derives as struct index 2 (byte offset
8) — on an LP64 little-endian host that is bytes 8..12 of the 8-byte
`usize` field `Cpu.pc` that actually lives at offset 8. -/
def setLow32 (pc v : Nat) : Nat := (pc / UINT32_BOUND) * UINT32_BOUND + v % UINT32_BOUND

/-- Overwrite byte 4 (bits 32..40) of a 64-bit `pc` value with `b`.
This is the effect of the emitted code's `i1` store through `halt_ptr`,
which `setup_prologue` derives as struct index 3 of the JIT's
`{i32, i32, i32, i1}` struct (byte offset 12) — on an LP64 host byte 12
of the live `#[repr(C)]` `Cpu` is byte 4 of the `usize` `pc` field,
while the real `halt` byte sits at offset 16 and is never accessed. -/
def setByte4 (pc b : Nat) : Nat :=
  (pc / 1099511627776) * 1099511627776 + (b % 256) * UINT32_BOUND + pc % UINT32_BOUND

/-- The state transformation performed by the code that
`TranslatorEngine::compile_dynamic_basic_block` emits for one opcode
(`halt`/`clra`/`inc3a`/`deca`/`setl`/`back7` in `src/translation.rs`),
executed against the live `#[repr(C)]` `Cpu` of `src/cpu.rs` on an LP64
little-endian host.  `acc` and `lc` are `i32` at offsets 0 and 4 on both
sides, so those accesses agree with the host fields; the emitted `i32`
accesses to struct index 2 see only the low 32 bits of the `usize` `pc`,
and the emitted `i1` store to struct index 3 lands in byte 4 of `pc`
(`setByte4`), not in the host `halt` flag.  `nsw`/`nuw` arithmetic is
read as deterministic two's-complement wraparound. -/
def nativeStep : OpCode → Cpu → Cpu
  | .HALT, c =>
      let pc1 := setByte4 c.pc 1
      { c with pc := setLow32 pc1 (pc1 % UINT32_BOUND + 1) }
  | .CLRA, c => { c with acc := 0, pc := setLow32 c.pc (c.pc % UINT32_BOUND + 1) }
  | .INC3A, c =>
      { c with acc := wrap32 (c.acc + 3), pc := setLow32 c.pc (c.pc % UINT32_BOUND + 1) }
  | .DECA, c =>
      { c with acc := wrap32 (c.acc - 1), pc := setLow32 c.pc (c.pc % UINT32_BOUND + 1) }
  | .SETL, c => { c with lc := c.acc, pc := setLow32 c.pc (c.pc % UINT32_BOUND + 1) }
  | .BACK7, c =>
      let lc2 := wrap32 (c.lc - 1)
      if 0 < lc2 then
        { c with lc := lc2, pc := setLow32 c.pc (c.pc % UINT32_BOUND + (UINT32_BOUND - 6)) }
      else
        { c with lc := lc2, pc := setLow32 c.pc (c.pc % UINT32_BOUND + 1) }

/-- Calling the native function compiled from a dynamic basic block: the
emitted function body is the straight-line concatenation of the
per-opcode lowerings, so its effect is the fold of `nativeStep`. -/
def callNative (dbb : List OpCode) (c : Cpu) : Cpu :=
  dbb.foldl (fun c op => nativeStep op c) c

/-- Pure interpretation (JIT disabled): iterate `interpret` until `halt`
is set, with step budget `n`.  `some f` means the run reaches `HALT`
with final engine state `f`; `none` means a panic or an unfinished run. -/
def pureRun : Nat → EngineSt → Option EngineSt
  | 0, e => if e.cpu.halt then some e else none
  | n + 1, e =>
      if e.cpu.halt then some e
      else
        match interpret e with
        | some (e2, _) => pureRun n e2
        | none => none

/-- Modelled from the spec: the `main_loop` driver of `src/lib.rs`
together with the `TranslationContext` translation record, whose source
file is not under `src/` (only `TranslatorEngine` is), and the external
`caches::AdaptiveCache` code cache.  Per the spec (§4.4–§4.5), each
iteration of the loop either interprets one dynamic basic block (cache
miss, or hit without native code because the counter is below the
threshold or compilation failed) or calls the cached native function for
the block that an earlier iteration at the same entry `pc` discovered.
All cache behaviours — capacity, adaptive-replacement evictions, and
which hits have compiled code — are abstracted into the oracle
`choices`: iteration `i` runs natively exactly when `choices[i]` is
`true` *and* the entry `pc` was already visited (`seen`), which
over-approximates every reachable hit/compile schedule.  The cached
block for `pc` is `decodeDBB mem pc`, the trace any interpretation from
`pc` produces (memory is never written after load). -/
def driverRun : List Bool → EngineSt → List Nat → Option EngineSt
  | [], e, _ => if e.cpu.halt then some e else none
  | b :: rest, e, seen =>
      if e.cpu.halt then some e
      else
        if b && decide (e.cpu.pc ∈ seen) then
          match decodeDBB e.mem e.cpu.pc with
          | some dbb => driverRun rest { e with cpu := callNative dbb e.cpu } (e.cpu.pc :: seen)
          | none => none
        else
          match interpret e with
          | some (e2, _) => driverRun rest e2 (e.cpu.pc :: seen)
          | none => none

/-- Offsets of the fields of a C-layout struct, given each field's
`(size, alignment)`: each field is placed at the current size aligned up
to the field's alignment.  Used to compare the `#[repr(C)]` layout of
the host `Cpu` with the LLVM struct the JIT assumes. -/
def structOffsets (fields : List (Nat × Nat)) : List Nat :=
  (fields.foldl
    (fun (st : List Nat × Nat) f =>
      let off := ((st.2 + f.2 - 1) / f.2) * f.2
      (st.1 ++ [off], off + f.1))
    ([], 0)).1

/-- `(size, alignment)` of the fields of the host `Cpu` of `src/cpu.rs`
(`#[repr(C)] { acc: i32, lc: i32, pc: usize, halt: bool }`) on an LP64
target, where `usize` is 8 bytes with 8-byte alignment. -/
def cpuFieldsHost64 : List (Nat × Nat) := [(4, 4), (4, 4), (8, 8), (1, 1)]

/-- `(size, alignment)` of the fields of the struct the JIT emits in
`TranslatorEngine::setup_prologue` (`{ i32, i32, i32, i1 }`, non-packed)
under the LLVM data layout: three 4-byte ints and a 1-byte flag. -/
def cpuFieldsJit : List (Nat × Nat) := [(4, 4), (4, 4), (4, 4), (1, 1)]

/-- The `seen`-list invariant of the driver simulation: every entry `pc`
recorded so far decodes to a block that is not `HALT`-terminated (a
`HALT`-terminated block would have ended the whole run when it was first
interpreted). -/
def SeenInv (m : Memory) (seen : List Nat) : Prop :=
  ∀ p ∈ seen, ∀ l, decodeDBB m p = some l → l.getLast? ≠ some OpCode.HALT

/-- A fresh zeroed memory (the `Default` impl of `Memory`). -/
def zeroMem : Memory := ⟨fun _ => 0⟩

/-- Concrete memory for exercising `BACK7` at `pc = 2`: byte 5 (`BACK7`)
at address 2, zeroes elsewhere. -/
def memBack7At2 : Memory := ⟨fun i => if i = 2 then 5 else 0⟩

/-- Concrete memory whose every byte is 9, an invalid opcode. -/
def memNines : Memory := ⟨fun _ => 9⟩

/-- A concrete engine state that is *not* freshly constructed:
`pc = 1`, `halt = true`. -/
def engineDirty : EngineSt := ⟨⟨0, 0, 1, true⟩, zeroMem⟩

/-- The empty program with zero initial registers. -/
def progEmpty : Program := ⟨[], 0, 0⟩

/-! ### Basic lemmas -/

theorem Memory.read_lt {m : Memory} {a b : Nat} (h : m.read a = some b) :
    a < MEMORY_SIZE := by
  by_contra hge
  simp [Memory.read, hge] at h

theorem OpCode.step_pc_straight {op : OpCode} (h : op.isTerminal = false) (c : Cpu) :
    (op.step c).pc = (c.pc + 1) % UINT64_BOUND := by
  cases op <;> simp_all [OpCode.isTerminal, OpCode.step]

theorem OpCode.step_halt_of_ne {op : OpCode} (h : op ≠ .HALT) (c : Cpu) :
    (op.step c).halt = c.halt := by
  cases op <;> simp_all [OpCode.step]
  split <;> rfl

theorem OpCode.terminal_cases {op : OpCode} (h : op.isTerminal = true) :
    op = .HALT ∨ op = .BACK7 := by
  cases op <;> simp_all [OpCode.isTerminal]

theorem interpretBlock_cons (op : OpCode) (l : List OpCode) (c : Cpu) :
    interpretBlock (op :: l) c = interpretBlock l (op.step c) := rfl

theorem interpretBlock_halt_of_no_halt :
    ∀ (l : List OpCode) (c : Cpu), (∀ u ∈ l, u ≠ OpCode.HALT) →
      (interpretBlock l c).halt = c.halt := by
  intro l
  induction l with
  | nil => intro c _; rfl
  | cons op l ih =>
      intro c h
      rw [interpretBlock_cons, ih _ (fun u hu => h u (List.mem_cons_of_mem _ hu))]
      exact OpCode.step_halt_of_ne (h op (List.mem_cons_self _ _)) c

theorem interpretBlock_halt_of_last_halt :
    ∀ (l : List OpCode) (c : Cpu),
      (interpretBlock (l ++ [OpCode.HALT]) c).halt = true := by
  intro l
  induction l with
  | nil => intro c; rfl
  | cons op l ih => intro c; rw [List.cons_append, interpretBlock_cons, ih]

theorem getLast?_cons_of_ne_nil {α : Type} {l : List α} (a : α) (h : l ≠ []) :
    (a :: l).getLast? = l.getLast? := by
  cases l with
  | nil => exact absurd rfl h
  | cons b l => simp [List.getLast?_cons_cons]

/-- Unfolding equation for `interpret` with a plain (non-dependent)
match, convenient for rewriting. -/
theorem interpret_unfold (e : EngineSt) :
    interpret e =
      match e.mem.read e.cpu.pc with
      | none => none
      | some b =>
        match OpCode.tryFrom b with
        | none => none
        | some op =>
          if op.isTerminal then
            some ({ e with cpu := op.step e.cpu }, [op])
          else
            match interpret { e with cpu := op.step e.cpu } with
            | some (e2, l) => some (e2, op :: l)
            | none => none := by
  rw [interpret.eq_def]
  cases hres : e.mem.read e.cpu.pc with
  | none => rfl
  | some b => cases OpCode.tryFrom b <;> rfl

/-- Unfolding equation for `decodeDBB` with a plain match. -/
theorem decodeDBB_unfold (m : Memory) (pc : Nat) :
    decodeDBB m pc =
      match m.read pc with
      | none => none
      | some b =>
        match OpCode.tryFrom b with
        | none => none
        | some op =>
          if op.isTerminal then
            some [op]
          else
            match decodeDBB m ((pc + 1) % UINT64_BOUND) with
            | some l => some (op :: l)
            | none => none := by
  rw [decodeDBB.eq_def]
  cases hres : m.read pc with
  | none => rfl
  | some b => cases OpCode.tryFrom b <;> rfl

/-! ### Structure of the interpreter's result -/

/-- What one call to `interpret` guarantees: memory is carried through
unchanged, the entry `pc` was a legal address, the returned opcode list
is exactly the decoded block at the entry `pc`, the final CPU is the
fold of the opcode table over that list, and the list consists of
straight-line opcodes followed by exactly one terminal opcode. -/
theorem interpret_spec :
    ∀ e e2 l, interpret e = some (e2, l) →
      e2.mem = e.mem ∧
      e.cpu.pc < MEMORY_SIZE ∧
      decodeDBB e.mem e.cpu.pc = some l ∧
      e2.cpu = interpretBlock l e.cpu ∧
      ∃ l0 t, l = l0 ++ [t] ∧ (∀ u ∈ l0, u.isTerminal = false) ∧ t.isTerminal = true := by
  intro e
  induction e using interpret.induct with
  | case1 x hread =>
      intro e2 l h
      rw [interpret_unfold] at h
      simp [hread] at h
  | case2 x b hread hdec =>
      intro e2 l h
      rw [interpret_unfold] at h
      simp [hread, hdec] at h
  | case3 x b hread op hdec hterm =>
      intro e2 l h
      rw [interpret_unfold] at h
      simp only [hread, hdec, hterm, if_true] at h
      obtain ⟨he2, hl⟩ : { cpu := op.step x.cpu, mem := x.mem : EngineSt } = e2 ∧ [op] = l := by
        have := Option.some.inj h
        exact ⟨congrArg Prod.fst this, congrArg Prod.snd this⟩
      refine ⟨?_, Memory.read_lt hread, ?_, ?_, [], op, by simp [hl.symm], by simp, hterm⟩
      · rw [← he2]
      · rw [decodeDBB_unfold]
        simp [hread, hdec, hterm, ← hl]
      · rw [← he2, ← hl]
        rfl
  | case4 x b hread op hdec hterm e2' l' hrec ih =>
      intro e2 l h
      rw [interpret_unfold] at h
      simp only [hread, hdec, hterm, if_false, hrec] at h
      obtain ⟨he2, hl⟩ : e2' = e2 ∧ op :: l' = l := by
        have := Option.some.inj h
        exact ⟨congrArg Prod.fst this, congrArg Prod.snd this⟩
      obtain ⟨hmem, _, hdbb, hfold, l0, t, hsplit, hl0, ht⟩ := ih e2' l' hrec
      have hterm' : op.isTerminal = false := by
        revert hterm; cases op.isTerminal <;> simp
      have hpcstep : (op.step x.cpu).pc = (x.cpu.pc + 1) % UINT64_BOUND :=
        OpCode.step_pc_straight hterm' x.cpu
      refine ⟨by rw [← he2]; exact hmem, Memory.read_lt hread, ?_, ?_, op :: l0, t, ?_, ?_, ht⟩
      · rw [decodeDBB_unfold]
        simp only [hread, hdec, hterm', Bool.false_eq_true, if_false]
        rw [← hpcstep]
        simp only [hdbb, ← hl]
      · rw [← he2, ← hl, interpretBlock_cons, hfold]
      · rw [← hl, hsplit]
        simp
      · intro u hu
        rcases List.mem_cons.mp hu with h1 | h2
        · rw [h1]; exact hterm'
        · exact hl0 u h2
  | case5 x b hread op hdec hterm hrec ih =>
      intro e2 l h
      rw [interpret_unfold] at h
      simp [hread, hdec, hterm, hrec] at h

/-! ### Agreement between the emitted native code and the interpreter -/

theorem setLow32_inc {pc : Nat} (h : pc < MEMORY_SIZE) :
    setLow32 pc (pc % UINT32_BOUND + 1) = (pc + 1) % UINT64_BOUND := by
  simp only [setLow32, UINT32_BOUND, UINT64_BOUND, MEMORY_SIZE] at *
  omega

theorem setLow32_back7_then {pc : Nat} (hpc : pc < MEMORY_SIZE)
    (hres : (pc + (UINT64_BOUND - 6)) % UINT64_BOUND < UINT32_BOUND) :
    setLow32 pc (pc % UINT32_BOUND + (UINT32_BOUND - 6))
      = (pc + (UINT64_BOUND - 6)) % UINT64_BOUND := by
  simp only [setLow32, UINT32_BOUND, UINT64_BOUND, MEMORY_SIZE] at *
  omega

/-- For the four straight-line opcodes, the emitted code agrees with the
interpreter step whenever the program counter is a legal address (so the
32-bit `pc` view coincides with the 64-bit field). -/
theorem nativeStep_straight {op : OpCode} (h : op.isTerminal = false) {c : Cpu}
    (hpc : c.pc < MEMORY_SIZE) : nativeStep op c = op.step c := by
  cases op <;> simp_all [OpCode.isTerminal, nativeStep, OpCode.step, setLow32_inc hpc]

/-- The emitted `BACK7` code agrees with the interpreter step whenever
the entry `pc` is a legal address and the interpreter's resulting `pc`
fits in 32 bits (which rules out the `PC − 6` underflow, where the
interpreter wraps at 64 bits but the emitted code at 32 bits). -/
theorem nativeStep_back7 {c : Cpu} (hpc : c.pc < MEMORY_SIZE)
    (hres : (OpCode.step .BACK7 c).pc < UINT32_BOUND) :
    nativeStep .BACK7 c = OpCode.step .BACK7 c := by
  simp only [nativeStep, OpCode.step] at *
  by_cases hlc : 0 < wrap32 (c.lc - 1)
  · simp only [if_pos hlc] at *
    rw [setLow32_back7_then hpc hres]
  · simp only [if_neg hlc]
    rw [setLow32_inc hpc]

theorem interpret_halt_of_last_not_HALT :
    ∀ {e e2 l}, interpret e = some (e2, l) → l.getLast? ≠ some OpCode.HALT →
      e2.cpu.halt = e.cpu.halt := by
  intro e e2 l h hl
  obtain ⟨_, _, _, hfold, l0, t, hsplit, hl0, ht⟩ := interpret_spec e e2 l h
  have hlast : l.getLast? = some t := by rw [hsplit]; exact List.getLast?_concat _
  have htH : t ≠ OpCode.HALT := fun hcontra => hl (hcontra ▸ hlast)
  rw [hfold, hsplit]
  apply interpretBlock_halt_of_no_halt
  intro u hu
  rcases List.mem_append.mp hu with h1 | h2
  · intro hcontra
    have := hl0 u h1
    rw [hcontra] at this
    simp [OpCode.isTerminal] at this
  · rw [List.mem_singleton.mp h2]
    exact htH

theorem interpret_halt_of_last_HALT :
    ∀ {e e2 l}, interpret e = some (e2, l) → l.getLast? = some OpCode.HALT →
      e2.cpu.halt = true := by
  intro e e2 l h hl
  obtain ⟨_, _, _, hfold, l0, t, hsplit, hl0, ht⟩ := interpret_spec e e2 l h
  have hlast : l.getLast? = some t := by rw [hsplit]; exact List.getLast?_concat _
  have htH : t = OpCode.HALT := by
    rw [hlast] at hl
    exact Option.some.inj hl
  rw [hfold, hsplit, htH]
  exact interpretBlock_halt_of_last_halt l0 e.cpu

/-- Core agreement theorem: if interpreting one dynamic basic block from
`e` succeeds with trace `l` and result `e2`, the block is not
`HALT`-terminated, and the resulting `pc` fits in 32 bits, then calling
the compiled native code for `l` on the same pre-state produces exactly
`e2`'s CPU. -/
theorem callNative_eq_interpret :
    ∀ e e2 l, interpret e = some (e2, l) → l.getLast? ≠ some OpCode.HALT →
      e2.cpu.pc < UINT32_BOUND → callNative l e.cpu = e2.cpu := by
  intro e
  induction e using interpret.induct with
  | case1 x hread =>
      intro e2 l h _ _
      rw [interpret_unfold] at h
      simp [hread] at h
  | case2 x b hread hdec =>
      intro e2 l h _ _
      rw [interpret_unfold] at h
      simp [hread, hdec] at h
  | case3 x b hread op hdec hterm =>
      intro e2 l h hlast hpc32
      rw [interpret_unfold] at h
      simp only [hread, hdec, hterm, if_true] at h
      obtain ⟨he2, hl⟩ : { cpu := op.step x.cpu, mem := x.mem : EngineSt } = e2 ∧ [op] = l := by
        have := Option.some.inj h
        exact ⟨congrArg Prod.fst this, congrArg Prod.snd this⟩
      have hop : op = OpCode.BACK7 := by
        rcases OpCode.terminal_cases hterm with h1 | h2
        · exfalso
          apply hlast
          rw [← hl, h1]
          rfl
        · exact h2
      rw [← hl, ← he2]
      show nativeStep op x.cpu = op.step x.cpu
      rw [hop]
      apply nativeStep_back7 (Memory.read_lt hread)
      rw [← hop]
      have : (op.step x.cpu) = e2.cpu := by rw [← he2]
      rw [this]
      exact hpc32
  | case4 x b hread op hdec hterm e2' l' hrec ih =>
      intro e2 l h hlast hpc32
      rw [interpret_unfold] at h
      simp only [hread, hdec, hterm, if_false, hrec] at h
      obtain ⟨he2, hl⟩ : e2' = e2 ∧ op :: l' = l := by
        have := Option.some.inj h
        exact ⟨congrArg Prod.fst this, congrArg Prod.snd this⟩
      have hterm' : op.isTerminal = false := by
        revert hterm; cases op.isTerminal <;> simp
      obtain ⟨_, _, _, _, l0, t, hsplit, _, _⟩ := interpret_spec _ _ _ hrec
      have hne : l' ≠ [] := by
        rw [hsplit]
        exact List.append_ne_nil_of_right_ne_nil _ (by simp)
      have hlast' : l'.getLast? ≠ some OpCode.HALT := by
        rw [← hl] at hlast
        rwa [getLast?_cons_of_ne_nil op hne] at hlast
      rw [← hl]
      show callNative (op :: l') x.cpu = e2.cpu
      have hstep : nativeStep op x.cpu = op.step x.cpu :=
        nativeStep_straight hterm' (Memory.read_lt hread)
      calc callNative (op :: l') x.cpu
      _ = callNative l' (nativeStep op x.cpu) := rfl
      _ = callNative l' (op.step x.cpu) := by rw [hstep]
      _ = e2.cpu := by
          rw [he2] at hrec
          exact ih e2 l' hrec hlast' hpc32
  | case5 x b hread op hdec hterm hrec ih =>
      intro e2 l h _ _
      rw [interpret_unfold] at h
      simp [hread, hdec, hterm, hrec] at h

/-! ### Simulation: the driver loop against pure interpretation -/

/-- An active (non-halted) state of a successful pure run has a legal
`pc` and a successful next interpretation step. -/
theorem pureRun_active {n : Nat} {e f : EngineSt} (h : pureRun n e = some f)
    (hh : e.cpu.halt = false) :
    ∃ m e2 l, n = m + 1 ∧ interpret e = some (e2, l) ∧ pureRun m e2 = some f := by
  cases n with
  | zero => simp [pureRun, hh] at h
  | succ m =>
      simp only [pureRun, hh, Bool.false_eq_true, if_false] at h
      cases hint : interpret e with
      | none => rw [hint] at h; exact absurd h (by simp)
      | some p =>
          obtain ⟨e2, l⟩ := p
          rw [hint] at h
          exact ⟨m, e2, l, rfl, rfl, h⟩

/-- Simulation argument: if pure interpretation halts in at most `n`
blocks with final state `f`, then the driver loop — under *any* schedule
of cache hits, evictions, and native executions — runs the same block
sequence through identical states and stops in the same final state
`f`. -/
theorem driver_sim :
    ∀ n (e f : EngineSt) (seen : List Nat) (choices : List Bool),
      pureRun n e = some f → n ≤ choices.length →
      (e.cpu.halt = false → SeenInv e.mem seen) →
      driverRun choices e seen = some f := by
  intro n
  induction n with
  | zero =>
      intro e f seen choices h _ _
      have hh : e.cpu.halt = true := by
        by_cases hh : e.cpu.halt
        · exact hh
        · simp [pureRun, hh] at h
      have hf : f = e := by
        simp [pureRun, hh] at h
        exact h.symm
      cases choices with
      | nil => simp [driverRun, hh, hf]
      | cons b rest => simp [driverRun, hh, hf]
  | succ m ih =>
      intro e f seen choices h hlen hinv
      by_cases hh : e.cpu.halt
      · have hf : f = e := by
          simp [pureRun, hh] at h
          exact h.symm
        cases choices with
        | nil => simp [driverRun, hh, hf]
        | cons b rest => simp [driverRun, hh, hf]
      · have hh' : e.cpu.halt = false := by simp [hh]
        cases choices with
        | nil => simp at hlen
        | cons b rest =>
            obtain ⟨m2, e2, l, hm, hint, hrest⟩ := pureRun_active h hh'
            have hm2 : m2 = m := by omega
            rw [hm2] at hrest
            obtain ⟨hmem, hpc, hdbb, hfold, l0, t, hsplit, hl0, ht⟩ :=
              interpret_spec e e2 l hint
            have hinv2 : e2.cpu.halt = false → SeenInv e2.mem (e.cpu.pc :: seen) := by
              intro hh2 p hp l2 hd2
              rw [hmem] at hd2
              rcases List.mem_cons.mp hp with h1 | h2
              · subst h1
                have hl2 : l2 = l := by
                  rw [hdbb] at hd2
                  exact (Option.some.inj hd2).symm
                subst hl2
                intro hcontra
                have := interpret_halt_of_last_HALT hint hcontra
                rw [this] at hh2
                exact absurd hh2 (by simp)
              · exact hinv hh' p h2 l2 hd2
            have hlen' : m ≤ rest.length := by simp at hlen; omega
            simp only [driverRun, hh', Bool.false_eq_true, if_false]
            by_cases hnat : (b && decide (e.cpu.pc ∈ seen)) = true
            · rw [if_pos hnat, hdbb]
              have hmemin : e.cpu.pc ∈ seen := by
                have := (Bool.and_eq_true _ _).mp hnat
                exact of_decide_eq_true this.2
              have hlastne : l.getLast? ≠ some OpCode.HALT :=
                hinv hh' e.cpu.pc hmemin l hdbb
              have hhalt2 : e2.cpu.halt = false := by
                rw [interpret_halt_of_last_not_HALT hint hlastne]
                exact hh'
              have hpc32 : e2.cpu.pc < UINT32_BOUND := by
                obtain ⟨m2, e3, l3, _, hint2, _⟩ := pureRun_active hrest hhalt2
                have hlt := (interpret_spec _ _ _ hint2).2.1
                have : MEMORY_SIZE < UINT32_BOUND := by decide
                omega
              have hcall : callNative l e.cpu = e2.cpu :=
                callNative_eq_interpret e e2 l hint hlastne hpc32
              have heq : { e with cpu := callNative l e.cpu } = e2 := by
                rw [hcall]
                cases e2 with
                | mk cpu2 mem2 =>
                    simp only at hmem ⊢
                    rw [hmem]
              show driverRun rest { e with cpu := callNative l e.cpu } (e.cpu.pc :: seen)
                = some f
              rw [heq]
              exact ih e2 f (e.cpu.pc :: seen) rest hrest hlen' hinv2
            · rw [if_neg hnat, hint]
              show driverRun rest e2 (e.cpu.pc :: seen) = some f
              exact ih e2 f (e.cpu.pc :: seen) rest hrest hlen' hinv2

/-- The driver never writes a byte of memory: whatever the schedule, the
final memory is the initial one. -/
theorem driverRun_mem :
    ∀ (choices : List Bool) (e : EngineSt) (seen : List Nat) (f : EngineSt),
      driverRun choices e seen = some f → f.mem = e.mem := by
  intro choices
  induction choices with
  | nil =>
      intro e seen f h
      simp only [driverRun] at h
      by_cases hh : e.cpu.halt
      · rw [if_pos hh] at h
        rw [← Option.some.inj h]
      · rw [if_neg hh] at h
        exact absurd h (by simp)
  | cons b rest ih =>
      intro e seen f h
      simp only [driverRun] at h
      by_cases hh : e.cpu.halt
      · rw [if_pos hh] at h
        rw [← Option.some.inj h]
      · rw [if_neg hh] at h
        by_cases hnat : (b && decide (e.cpu.pc ∈ seen)) = true
        · rw [if_pos hnat] at h
          cases hdbb : decodeDBB e.mem e.cpu.pc with
          | none => rw [hdbb] at h; exact absurd h (by simp)
          | some dbb =>
              rw [hdbb] at h
              have h' : driverRun rest { e with cpu := callNative dbb e.cpu }
                  (e.cpu.pc :: seen) = some f := h
              exact ih { e with cpu := callNative dbb e.cpu } _ _ h'
        · rw [if_neg hnat] at h
          cases hint : interpret e with
          | none => rw [hint] at h; exact absurd h (by simp)
          | some p =>
              obtain ⟨e2, l⟩ := p
              rw [hint] at h
              have h1 := ih _ _ _ h
              have h2 := (interpret_spec e e2 l hint).1
              rw [h1, h2]

/-! ### Claim theorems -/

/-- C1: the claim that the native function compiled from a dynamic basic
block always produces the same post-state as interpreting the block is
violated by the code.  For the block `[HALT]` and pre-state
`ACC = 0, LC = 0, PC = 0, HALT = false`, interpreting sets
`HALT := true, PC := 1`, while the native function — whose emitted
struct puts `halt` at offset 12 and `pc` as an `i32` at offset 8 while
the `#[repr(C)]` host `Cpu` has the `usize` `pc` at offsets 8..16 and
`halt` at 16 — leaves the host `halt` flag `false` and turns `pc` into
`2^32 + 1`. -/
theorem C1_jit_block_not_equivalent :
    callNative [OpCode.HALT] ⟨0, 0, 0, false⟩
      ≠ interpretBlock [OpCode.HALT] ⟨0, 0, 0, false⟩ ∧
    callNative [OpCode.HALT] ⟨0, 0, 0, false⟩ = ⟨0, 0, 4294967297, false⟩ ∧
    interpretBlock [OpCode.HALT] ⟨0, 0, 0, false⟩ = ⟨0, 0, 1, true⟩ := by
  refine ⟨?_, by decide, by decide⟩
  decide

/-- C2: the claim that the host `Cpu` and the JIT's emitted struct have
identical field widths and offsets is violated on an LP64 host:
`pc: usize` is 8 bytes (not the claimed `u32`), so `#[repr(C)]` places
the fields at offsets 0/4/8/16, while the JIT's `{i32,i32,i32,i1}`
struct places them at 0/4/8/12 — field 2 differs in width and field 3
in offset. -/
theorem C2_layout_mismatch :
    structOffsets cpuFieldsHost64 = [0, 4, 8, 16] ∧
    structOffsets cpuFieldsJit = [0, 4, 8, 12] ∧
    cpuFieldsHost64.getD 2 (0, 0) = (8, 8) ∧
    cpuFieldsJit.getD 2 (0, 0) = (4, 4) ∧
    (structOffsets cpuFieldsHost64).getD 3 0
      ≠ (structOffsets cpuFieldsJit).getD 3 0 ∧
    (cpuFieldsHost64.getD 2 (0, 0)).1 ≠ (cpuFieldsJit.getD 2 (0, 0)).1 := by
  refine ⟨by decide, by decide, by decide, by decide, by decide, by decide⟩

/-- C3: the claim that interpreter and JIT produce bit-identical `PC`
results for an underflowing `BACK7` (here `PC = 2`, `LC = 5`, byte 5 at
address 2) is violated: the interpreter subtracts on the 64-bit `usize`
width, giving `2^64 − 4`, while the emitted code subtracts on 32 bits
and stores through the `i32` view of `pc`, giving `2^32 − 4`. -/
theorem C3_back7_underflow_diverges :
    (interpret ⟨⟨0, 5, 2, false⟩, memBack7At2⟩).map (fun r => r.1.cpu.pc)
      = some 18446744073709551612 ∧
    (callNative [OpCode.BACK7] ⟨0, 5, 2, false⟩).pc = 4294967292 ∧
    (18446744073709551612 : Nat) ≠ 4294967292 := by
  refine ⟨?_, by decide, by decide⟩
  rw [interpret_unfold]
  simp only [Memory.read, memBack7At2]
  norm_num [MEMORY_SIZE, OpCode.tryFrom, OpCode.isTerminal, OpCode.step, UINT64_BOUND,
    wrap32]

/-- C4: `INC3A` adds 3 and `DECA` subtracts 1 from `ACC` with
two's-complement wraparound, identically in the interpreter table and in
the code the JIT emits (and the full per-opcode steps coincide whenever
`pc + 1` fits the 32-bit view); at `ACC = i32::MAX`, `INC3A` wraps to
`i32::MIN + 2`. -/
theorem C4_inc3a_deca_wrap :
    (∀ c : Cpu,
      (OpCode.step .INC3A c).acc = wrap32 (c.acc + 3) ∧
      (nativeStep .INC3A c).acc = wrap32 (c.acc + 3) ∧
      (OpCode.step .DECA c).acc = wrap32 (c.acc - 1) ∧
      (nativeStep .DECA c).acc = wrap32 (c.acc - 1)) ∧
    (∀ c : Cpu, c.pc + 1 < UINT32_BOUND →
      nativeStep .INC3A c = OpCode.step .INC3A c ∧
      nativeStep .DECA c = OpCode.step .DECA c) ∧
    wrap32 (2147483647 + 3) = -2147483648 + 2 := by
  refine ⟨fun c => ⟨rfl, rfl, rfl, rfl⟩, fun c hpc => ?_, by decide⟩
  have hlow : setLow32 c.pc (c.pc % UINT32_BOUND + 1) = (c.pc + 1) % UINT64_BOUND := by
    simp only [setLow32, UINT32_BOUND, UINT64_BOUND] at *
    omega
  constructor <;> simp [nativeStep, OpCode.step, hlow]

/-- C4 witness: the theorem applied at the concrete state
`ACC = i32::MAX, PC = 0`. -/
theorem C4_witness :
    (OpCode.step .INC3A ⟨2147483647, 0, 0, false⟩).acc = wrap32 (2147483647 + 3) ∧
    nativeStep .INC3A ⟨2147483647, 0, 0, false⟩
      = OpCode.step .INC3A ⟨2147483647, 0, 0, false⟩ ∧
    wrap32 (2147483647 + 3) = -2147483648 + 2 :=
  ⟨(C4_inc3a_deca_wrap.1 ⟨2147483647, 0, 0, false⟩).1,
   ((C4_inc3a_deca_wrap.2.1 ⟨2147483647, 0, 0, false⟩ (by decide)).1),
   C4_inc3a_deca_wrap.2.2⟩

/-- Concrete evaluation shared by several witnesses: on the all-zero
memory, interpreting from the reset CPU executes the single `HALT` at
address 0. -/
theorem interpret_zeroMem :
    interpret ⟨⟨0, 0, 0, false⟩, zeroMem⟩
      = some (⟨⟨0, 0, 1, true⟩, zeroMem⟩, [OpCode.HALT]) := by
  rw [interpret_unfold]
  simp [Memory.read, MEMORY_SIZE, zeroMem, OpCode.tryFrom, OpCode.isTerminal,
    OpCode.step, UINT64_BOUND]

/-- C5: a successful `interpret` call returns a non-empty opcode
sequence that is exactly the decoded block at the entry `pc`, whose last
element is `HALT` or `BACK7` and whose earlier elements are neither; the
final CPU is the fold of the opcode table over the sequence, and a
`HALT`-terminated block leaves `halt` set. -/
theorem C5_interpret_contract (e e2 : EngineSt) (l : List OpCode)
    (hpre : e.cpu.halt = false) (h : interpret e = some (e2, l)) :
    l ≠ [] ∧
    (∃ t, l.getLast? = some t ∧ (t = OpCode.HALT ∨ t = OpCode.BACK7)) ∧
    (∀ u ∈ l.dropLast, u ≠ OpCode.HALT ∧ u ≠ OpCode.BACK7) ∧
    decodeDBB e.mem e.cpu.pc = some l ∧
    e2.cpu = interpretBlock l e.cpu ∧
    (l.getLast? = some OpCode.HALT → e2.cpu.halt = true) := by
  obtain ⟨hmem, hpc, hdbb, hfold, l0, t, hsplit, hl0, ht⟩ := interpret_spec e e2 l h
  have hlast : l.getLast? = some t := by
    rw [hsplit]
    exact List.getLast?_concat _
  refine ⟨?_, ⟨t, hlast, OpCode.terminal_cases ht⟩, ?_, hdbb, hfold,
    fun hH => interpret_halt_of_last_HALT h hH⟩
  · rw [hsplit]
    exact List.append_ne_nil_of_right_ne_nil _ (by simp)
  · intro u hu
    have hdl : l.dropLast = l0 := by
      rw [hsplit]
      simp
    rw [hdl] at hu
    have hu' := hl0 u hu
    refine ⟨fun hc => ?_, fun hc => ?_⟩ <;> subst hc <;>
      simp [OpCode.isTerminal] at hu'

/-- C5 witness: the contract applied to the single-`HALT` run on the
all-zero memory. -/
theorem C5_witness :
    ([OpCode.HALT] : List OpCode) ≠ [] ∧
    decodeDBB zeroMem 0 = some [OpCode.HALT] ∧
    (⟨⟨0, 0, 1, true⟩, zeroMem⟩ : EngineSt).cpu
      = interpretBlock [OpCode.HALT] (⟨⟨0, 0, 0, false⟩, zeroMem⟩ : EngineSt).cpu := by
  have h := C5_interpret_contract ⟨⟨0, 0, 0, false⟩, zeroMem⟩
    ⟨⟨0, 0, 1, true⟩, zeroMem⟩ [OpCode.HALT] rfl interpret_zeroMem
  exact ⟨h.1, h.2.2.2.1, h.2.2.2.2.1⟩

/-- C6 counterexample: the claim says that after `load_program` on *any*
engine state the CPU has `PC = 0` and `HALT = false`; but `load_program`
never writes `pc` or `halt`, so loading the empty program into an engine
with `pc = 1, halt = true` leaves them at `1` and `true`. -/
theorem C6_counterexample :
    ¬ (∀ e', load_program engineDirty progEmpty = some e' →
        e'.cpu.pc = 0 ∧ e'.cpu.halt = false) := by
  intro h
  have hload : load_program engineDirty progEmpty
      = some ⟨⟨0, 0, 1, true⟩, (Memory.write_chunk zeroMem []).1⟩ := rfl
  obtain ⟨h1, h2⟩ := h _ hload
  simp at h1

/-- C6 amended: after a successful `load_program` the CPU has
`ACC = initial_acc` and `LC = initial_lc`, memory bytes `0..len` equal
the program image, and `PC` and `HALT` keep the values they had before
the call (hence `0` and `false` exactly when the engine was freshly
constructed). -/
theorem C6_load_program_amended (e : EngineSt) (p : Program) (e' : EngineSt)
    (hlen : p.data.length ≤ MEMORY_SIZE) (h : load_program e p = some e') :
    e'.cpu.acc = p.initial_acc ∧ e'.cpu.lc = p.initial_lc ∧
    e'.cpu.pc = e.cpu.pc ∧ e'.cpu.halt = e.cpu.halt ∧
    ∀ i, i < p.data.length → e'.mem.data i = p.data.getD i 0 := by
  have hc : ¬ (p.data.length > MEMORY_SIZE) := by omega
  unfold load_program Memory.write_chunk at h
  rw [if_neg hc] at h
  have h' : some (⟨⟨p.initial_acc, p.initial_lc, e.cpu.pc, e.cpu.halt⟩,
      ⟨fun i => if i < p.data.length then p.data.getD i 0 else e.mem.data i⟩⟩
        : EngineSt) = some e' := h
  have he := Option.some.inj h'
  subst he
  refine ⟨rfl, rfl, rfl, rfl, fun i hi => ?_⟩
  simp [hi]

/-- C6 amended witness: loading the one-byte program `[9]` with
`acc = 7, lc = 8` into the dirty engine (`pc = 1, halt = true`). -/
theorem C6_witness :
    load_program engineDirty ⟨[9], 7, 8⟩
      = some ⟨⟨7, 8, 1, true⟩, (Memory.write_chunk zeroMem [9]).1⟩ ∧
    (⟨⟨7, 8, 1, true⟩, (Memory.write_chunk zeroMem [9]).1⟩ : EngineSt).cpu.pc
      = engineDirty.cpu.pc ∧
    (⟨⟨7, 8, 1, true⟩, (Memory.write_chunk zeroMem [9]).1⟩ : EngineSt).mem.data 0 = 9 := by
  have hload : load_program engineDirty ⟨[9], 7, 8⟩
      = some ⟨⟨7, 8, 1, true⟩, (Memory.write_chunk zeroMem [9]).1⟩ := rfl
  have h := C6_load_program_amended engineDirty ⟨[9], 7, 8⟩ _ (by decide) hload
  exact ⟨hload, h.2.2.1, h.2.2.2.2 0 (by decide)⟩

/-- C7: cache transparency and termination of the driver.  If pure
interpretation (JIT disabled) reaches `HALT` within `n` blocks with
final state `f`, then the `main_loop` driver — for *every* schedule of
cache hits, evictions and native executions, modelled by the oracle
`choices` — terminates on the same program in the same final state
(all four CPU fields and the memory). -/
theorem C7_main_loop_transparent (n : Nat) (e f : EngineSt) (choices : List Bool)
    (h : pureRun n e = some f) (hlen : n ≤ choices.length) :
    driverRun choices e [] = some f :=
  driver_sim n e f [] choices h hlen (fun _ p hp => absurd hp (List.not_mem_nil p))

/-- C7 witness: the one-block program `[HALT]` run both ways. -/
theorem C7_witness :
    pureRun 1 ⟨⟨0, 0, 0, false⟩, zeroMem⟩ = some ⟨⟨0, 0, 1, true⟩, zeroMem⟩ ∧
    driverRun [true] ⟨⟨0, 0, 0, false⟩, zeroMem⟩ [] = some ⟨⟨0, 0, 1, true⟩, zeroMem⟩ := by
  have hpure : pureRun 1 ⟨⟨0, 0, 0, false⟩, zeroMem⟩
      = some ⟨⟨0, 0, 1, true⟩, zeroMem⟩ := by
    simp [pureRun, interpret_zeroMem]
  exact ⟨hpure, C7_main_loop_transparent 1 _ _ [true] hpure (by decide)⟩

/-- C8: a byte decodes to an opcode exactly when it is in `{0..5}`, with
the fixed encoding `0=HALT .. 5=BACK7`, and the interpreter aborts
(panics) when the byte at `pc` is outside that range. -/
theorem C8_decode_total (b : Nat) :
    ((OpCode.tryFrom b).isSome ↔ b < 6) ∧
    (OpCode.tryFrom 0 = some OpCode.HALT ∧ OpCode.tryFrom 1 = some OpCode.CLRA ∧
     OpCode.tryFrom 2 = some OpCode.INC3A ∧ OpCode.tryFrom 3 = some OpCode.DECA ∧
     OpCode.tryFrom 4 = some OpCode.SETL ∧ OpCode.tryFrom 5 = some OpCode.BACK7) ∧
    (∀ e : EngineSt, e.mem.read e.cpu.pc = some b → OpCode.tryFrom b = none →
      interpret e = none) := by
  refine ⟨?_, ⟨rfl, rfl, rfl, rfl, rfl, rfl⟩, ?_⟩
  · match b with
    | 0 | 1 | 2 | 3 | 4 | 5 => simp [OpCode.tryFrom]
    | (n + 6) =>
        simp [show OpCode.tryFrom (n + 6) = none from rfl]
  · intro e hread hdec
    rw [interpret_unfold]
    simp [hread, hdec]

/-- C8 witness: byte 9 fails to decode, and interpreting with memory
full of 9s panics. -/
theorem C8_witness :
    OpCode.tryFrom 9 = none ∧
    interpret ⟨⟨0, 0, 0, false⟩, memNines⟩ = none := by
  have hread : (⟨⟨0, 0, 0, false⟩, memNines⟩ : EngineSt).mem.read
      (⟨⟨0, 0, 0, false⟩, memNines⟩ : EngineSt).cpu.pc = some 9 := by
    simp [Memory.read, MEMORY_SIZE, memNines]
  exact ⟨rfl, (C8_decode_total 9).2.2 _ hread rfl⟩

/-- C9: `write_chunk` fails exactly when the chunk exceeds the 64 KiB
memory; on success it copies the chunk to offset 0 and leaves every byte
at an index `≥ chunk.length` unchanged; on failure the memory is
untouched. -/
theorem C9_write_chunk_contract (m : Memory) (chunk : List Nat) :
    ((Memory.write_chunk m chunk).2.isSome ↔ chunk.length > MEMORY_SIZE) ∧
    (chunk.length ≤ MEMORY_SIZE →
      (∀ i, i < chunk.length → (Memory.write_chunk m chunk).1.data i = chunk.getD i 0) ∧
      (∀ i, chunk.length ≤ i → (Memory.write_chunk m chunk).1.data i = m.data i)) ∧
    (chunk.length > MEMORY_SIZE → (Memory.write_chunk m chunk).1 = m) := by
  by_cases hlen : chunk.length > MEMORY_SIZE
  · unfold Memory.write_chunk
    rw [if_pos hlen]
    exact ⟨by simp [hlen], fun hc => absurd hlen (by omega), fun _ => rfl⟩
  · unfold Memory.write_chunk
    rw [if_neg hlen]
    refine ⟨by simp [hlen], fun _ => ⟨fun i hi => by simp [hi], fun i hi => ?_⟩,
      fun hc => absurd hc hlen⟩
    have : ¬ i < chunk.length := by omega
    simp [this]

/-- C9 witness: writing `[1, 2]` into the zero memory. -/
theorem C9_witness :
    (Memory.write_chunk zeroMem [1, 2]).1.data 0 = 1 ∧
    (Memory.write_chunk zeroMem [1, 2]).1.data 1 = 2 ∧
    (Memory.write_chunk zeroMem [1, 2]).1.data 7 = 0 ∧
    ((Memory.write_chunk zeroMem [1, 2]).2.isSome
      ↔ ([1, 2] : List Nat).length > MEMORY_SIZE) := by
  have h := C9_write_chunk_contract zeroMem [1, 2]
  refine ⟨(h.2.1 (by decide)).1 0 (by decide), (h.2.1 (by decide)).1 1 (by decide),
    ?_, h.1⟩
  have h7 := (h.2.1 (by decide)).2 7 (by decide)
  rw [h7]
  rfl

/-- C10: execution never writes memory — `interpret` returns the memory
it was given, and an entire driver run (any schedule) ends with the
memory it started with, so the post-`load_program` image persists
unchanged to exit. -/
theorem C10_memory_never_written :
    (∀ e e2 l, interpret e = some (e2, l) → e2.mem = e.mem) ∧
    (∀ (choices : List Bool) (e : EngineSt) (seen : List Nat) (f : EngineSt),
      driverRun choices e seen = some f → f.mem = e.mem) :=
  ⟨fun e e2 l h => (interpret_spec e e2 l h).1, driverRun_mem⟩

/-- C10 witness: the single-`HALT` run keeps the zero memory. -/
theorem C10_witness :
    interpret ⟨⟨0, 0, 0, false⟩, zeroMem⟩
      = some (⟨⟨0, 0, 1, true⟩, zeroMem⟩, [OpCode.HALT]) ∧
    (⟨⟨0, 0, 1, true⟩, zeroMem⟩ : EngineSt).mem
      = (⟨⟨0, 0, 0, false⟩, zeroMem⟩ : EngineSt).mem :=
  ⟨interpret_zeroMem, C10_memory_never_written.1 _ _ _ interpret_zeroMem⟩

end VtVm
